import Mathlib

/-!
Verification development for the team-assignment and state-reconciliation
engine of the AGIOS2.8 repository.  Participant records are ordered
column-to-value maps, team assignment state is an ordered string map
(modelling a JS object), and the engine is `assignTeams` together with
`getParticipantKey`, the attendance merge of `loadData`, and
`toggleAttendance`.
-/

namespace Agios

/-- Substring test on character lists: does the list start with the needle? -/
def chLeads : List Char → List Char → Bool
  | [], _ => true
  | _ :: _, [] => false
  | a :: as, b :: bs => a == b && chLeads as bs

/-- Substring test on character lists: does the needle occur anywhere? -/
def chHas : List Char → List Char → Bool
  | n, [] => n.isEmpty
  | n, h :: t => chLeads n (h :: t) || chHas n t

/-- JS `hay.includes(needle)` on strings. -/
def hasSub (hay needle : String) : Bool :=
  chHas needle.data hay.data

/-- JS `s.toLowerCase()` (character-wise, structurally recursive model). -/
def strLower (s : String) : String :=
  String.mk (s.data.map Char.toLower)

/-- JS `s.trim()`: drop whitespace from both ends. -/
def strTrim (s : String) : String :=
  String.mk (((s.data.dropWhile Char.isWhitespace).reverse.dropWhile
    Char.isWhitespace).reverse)

/-- An ordered string-keyed map, modelling a JS object (unique keys,
insertion order preserved). -/
def StrMap (α : Type) : Type := List (String × α)

instance (α : Type) [DecidableEq α] : DecidableEq (StrMap α) :=
  inferInstanceAs (DecidableEq (List (String × α)))

instance (α : Type) : Membership (String × α) (StrMap α) :=
  inferInstanceAs (Membership (String × α) (List (String × α)))

/-- Property lookup: first entry with the given key. -/
def oget {α : Type} (m : StrMap α) (k : String) : Option α :=
  match m with
  | [] => none
  | kv :: t => if kv.1 == k then some kv.2 else oget t k

/-- Property write: overwrite in place, or append a fresh key at the end,
as JS object assignment does. -/
def oset {α : Type} (m : StrMap α) (k : String) (v : α) : StrMap α :=
  match m with
  | [] => [(k, v)]
  | kv :: t => if kv.1 == k then (k, v) :: t else kv :: oset t k v

/-- The keys of a map, in order. -/
def okeys {α : Type} (m : StrMap α) : List String :=
  match m with
  | [] => []
  | kv :: t => kv.1 :: okeys t

/-- The values of a map, in order (JS `Object.values`). -/
def ovals {α : Type} (m : StrMap α) : List α :=
  match m with
  | [] => []
  | kv :: t => kv.2 :: ovals t

/-- JS truthiness of a possibly-missing string property: present and
non-empty. -/
def struthy (o : Option String) : Bool :=
  o.getD "" != ""

/-- First-of combinator on options (JS-style fallback chaining). -/
def ofirst {α : Type} (a b : Option α) : Option α :=
  match a with
  | some x => some x
  | none => b

/-- A participant record: an ordered mapping from column name to string
value. -/
def Rec : Type := StrMap String

instance : DecidableEq Rec :=
  inferInstanceAs (DecidableEq (List (String × String)))

/-- `p[h] || mistyped-missing`: record field as an option. -/
def rgetOpt (p : Rec) (h : String) : Option String :=
  oget p h

/-- `p[h] || ''`: record field with empty-string default. -/
def rgetS (p : Rec) (h : String) : String :=
  (oget p h).getD ""

/-- The fixed, ordered team set of the source. -/
def TEAM_NAMES : List String := ["Rojo", "Azul", "Verde", "Amarillo"]

/-- The fixed coordinator override table, in source insertion order. -/
def COORDINADORES_FIJOS : List (String × String) :=
  [("filadelfia huallpa", "Rojo"),
   ("rieles onarry tereba", "Rojo"),
   ("maria magdalena bustillos", "Amarillo"),
   ("jose luis calle", "Amarillo"),
   ("ana maria villarpando", "Verde"),
   ("israel condori quispe", "Verde"),
   ("Diana Rodas Aguilar", "Azul"),
   ("santos bustillos", "Azul")]

/-- One escaped character of the JSON rendering. -/
def escChar (c : Char) : String :=
  if c = '\\' then "\\\\" else if c = '"' then "\\\"" else String.singleton c

/-- A JSON string literal for `s`. -/
def jsonQuote (s : String) : String :=
  "\"" ++ String.join (s.data.map escChar) ++ "\""

/-- `JSON.stringify` of a record value. -/
def jsonStringify (p : Rec) : String :=
  "\x7b" ++ String.intercalate ","
      ((p : List (String × String)).map (fun kv => jsonQuote kv.1 ++ ":" ++ jsonQuote kv.2))
    ++ "\x7d"

/-- The last fallback of `getParticipantKey`: the first column value, or a
full serialization of the record, trimmed. -/
def fallbackKey (p : Rec) (headers : List String) : String :=
  let v := match headers with
    | [] => ""
    | h :: _ => rgetS p h
  strTrim (if v != "" then v else jsonStringify p)

/-- The phone-number branch of `getParticipantKey`. -/
def phoneKey (p : Rec) (headers : List String) : String :=
  match headers.find? (fun h => hasSub (strLower h) "celular" || hasSub (strLower h) "telefono") with
  | some pf => if rgetS p pf != "" then strTrim (rgetS p pf) else fallbackKey p headers
  | none => fallbackKey p headers

/-- `getParticipantKey` from the source: name column first (trimmed,
lower-cased), then phone column (trimmed), then first column or a full
serialization. -/
def getParticipantKey (p : Rec) (headers : List String) : String :=
  match headers.find? (fun h => hasSub (strLower h) "nombre" && hasSub (strLower h) "apellido") with
  | some nf =>
    if rgetS p nf != "" then strLower (strTrim (rgetS p nf))
    else phoneKey p headers
  | none => phoneKey p headers

/-- Swap two positions of a list (no-op when either index is out of
range), modelling an in-place array swap. -/
def lswap {α : Type} (l : List α) (i j : Nat) : List α :=
  match l[i]?, l[j]? with
  | some x, some y => (l.set i y).set j x
  | _, _ => l

/-- The Fisher-Yates loop of the source `shuffle`: for `i` from
`fuel` down to `1`, swap position `i` with position `r i % (i+1)`. -/
def fyLoop {α : Type} (r : Nat → Nat) : List α → Nat → List α
  | l, 0 => l
  | l, i + 1 => fyLoop r (lswap l (i + 1) (r (i + 1) % (i + 2))) i

/-- The source `shuffle`, with the stream of random draws made an
explicit parameter `r` (`r i` stands for `Math.floor(Math.random()*(i+1))`,
reduced mod `i+1` so that every in-range draw is representable). -/
def jsShuffle {α : Type} (r : Nat → Nat) (l : List α) : List α :=
  fyLoop r l (l.length - 1)

/-- Detection of the payment-method column. -/
def formaPagoColumn (headers : List String) : Option String :=
  headers.find? (fun h =>
    hasSub (strLower h) "forma de pago" || hasSub (strLower h) "pago")

/-- The staff pre-filter of `assignTeams`: with no payment column keep
everything, otherwise drop records whose payment value contains "staff". -/
def keepRecord (fp : Option String) (p : Rec) : Bool :=
  match fp with
  | none => true
  | some c => ! hasSub (strLower (rgetS p c)) "staff"

/-- The filtered participant pool (`participantesFiltrados`). -/
def filteredOf (participants : List Rec) (headers : List String) : List Rec :=
  participants.filter (keepRecord (formaPagoColumn headers))

/-- Does a record name a fixed coordinator (case-insensitive substring of
the display-name column against the override table)? -/
def esCoordinador (p : Rec) : Bool :=
  COORDINADORES_FIJOS.any (fun e =>
    hasSub (strLower (rgetS p "NOMBRE Y APELLIDO")) (strLower e.1))

/-- The coordinator sub-pool of the filtered records. -/
def coordsOf (participants : List Rec) (headers : List String) : List Rec :=
  (filteredOf participants headers).filter esCoordinador

/-- The non-coordinator sub-pool of the filtered records. -/
def othersOf (participants : List Rec) (headers : List String) : List Rec :=
  (filteredOf participants headers).filter (fun p => ! esCoordinador p)

/-- The first override-table entry matched by a coordinator record. -/
def coordMatch (p : Rec) : Option (String × String) :=
  COORDINADORES_FIJOS.find? (fun e =>
    hasSub (strLower (rgetS p "NOMBRE Y APELLIDO")) (strLower e.1))

/-- Pinning one coordinator record into the assignment map. -/
def pinStep (headers : List String) (m : StrMap String) (p : Rec) : StrMap String :=
  match coordMatch p with
  | some e => oset m (getParticipantKey p headers) e.2
  | none => m

/-- The assignment map after the coordinator pins have been folded on top
of the existing assignments. -/
def pinsOf (participants : List Rec) (headers : List String)
    (existingAssignments : StrMap String) : StrMap String :=
  (coordsOf participants headers).foldl (pinStep headers) existingAssignments

/-- The unassigned pool (`otrosNoAsignados`): non-coordinator records whose
key has no truthy entry after the pins. -/
def unassignedOf (participants : List Rec) (headers : List String)
    (existingAssignments : StrMap String) : List Rec :=
  (othersOf participants headers).filter (fun p =>
    ! struthy (oget (pinsOf participants headers existingAssignments)
      (getParticipantKey p headers)))

/-- The gender value of a record, lower-cased then trimmed as the source
does. -/
def genero (p : Rec) : String :=
  strTrim (strLower (rgetS p "SELECCIONA TU GENERO"))

/-- Membership in the male cohort. -/
def esHombre (g : String) : Bool :=
  hasSub g "masculino" || hasSub g "hombre" || g == "m"

/-- Membership in the female cohort (only consulted when the male test
failed, as in the if/else chain of the source). -/
def esMujer (g : String) : Bool :=
  hasSub g "femenino" || hasSub g "mujer" || g == "f"

/-- The three gender cohorts of the unassigned pool, in input order. -/
def hombresOf (u : List Rec) : List Rec := u.filter (fun p => esHombre (genero p))

def restOf (u : List Rec) : List Rec := u.filter (fun p => ! esHombre (genero p))

def mujeresOf (u : List Rec) : List Rec :=
  (restOf u).filter (fun p => esMujer (genero p))

def otrosCohortOf (u : List Rec) : List Rec :=
  (restOf u).filter (fun p => ! esMujer (genero p))

/-- The concatenation of the three independently shuffled cohorts; the
random parameter `rand c i` is the draw for loop index `i` of shuffle call
`c`. -/
def allShuffledOf (rand : Nat → Nat → Nat) (u : List Rec) : List Rec :=
  jsShuffle (rand 0) (hombresOf u) ++ jsShuffle (rand 1) (mujeresOf u)
    ++ jsShuffle (rand 2) (otrosCohortOf u)

/-- The balanced initial split: the i-th record of the shuffled
concatenation gets team `i mod 4`. -/
def balAssign (base : StrMap String) (headers : List String)
    (l : List Rec) : StrMap String :=
  l.enum.foldl (fun m ip =>
    oset m (getParticipantKey ip.2 headers) (TEAM_NAMES.getD (ip.1 % 4) "")) base

/-- Per-team tallies of an assignment map (`Object.values(...).filter(...)`).
-/
def countsInit (m : StrMap String) : String → Nat :=
  fun name => (ovals m).count name

/-- Increment one tally. -/
def bump (c : String → Nat) (t : String) : String → Nat :=
  Function.update c t (c t + 1)

/-- JS `Array.prototype.reduce` with no initial accumulator. -/
def jsReduce {α : Type} (f : α → α → α) : List α → Option α
  | [] => none
  | x :: xs => some (xs.foldl f x)

/-- The smallest-team pick of the source:
`TEAM_NAMES.reduce((a, b) => (teamCounts[a] <= teamCounts[b] ? a : b))`. -/
def smallestTeam (c : String → Nat) : String :=
  (jsReduce (fun a b => if c a ≤ c b then a else b) TEAM_NAMES).getD ""

/-- One step of the incremental top-up: assign the current smallest team
and bump its running tally before the next record. -/
def topUpStep (headers : List String)
    (mc : StrMap String × (String → Nat)) (p : Rec) :
    StrMap String × (String → Nat) :=
  let t := smallestTeam mc.2
  (oset mc.1 (getParticipantKey p headers) t, bump mc.2 t)

/-- The incremental top-up pass over the unassigned pool. -/
def topUpAssign (base : StrMap String) (headers : List String)
    (l : List Rec) : StrMap String :=
  (l.foldl (topUpStep headers) (base, countsInit base)).1

/-- Appending a record to one roster of the team table. -/
def pushTeam (ts : StrMap (List Rec)) (t : String) (p : Rec) : StrMap (List Rec) :=
  (ts : List (String × List Rec)).map (fun kv =>
    if kv.1 == t then (kv.1, kv.2 ++ [p]) else kv)

/-- The roster build of `assignTeams`: scan the filtered records in order
and place each into the roster named by its assignment entry, skipping
records with no truthy entry or an entry outside the fixed team set. -/
def buildTeams (assigns : StrMap String) (filteredPs : List Rec)
    (headers : List String) : StrMap (List Rec) :=
  filteredPs.foldl (fun ts p =>
    let team := (oget assigns (getParticipantKey p headers)).getD ""
    if team != "" && TEAM_NAMES.contains team then pushTeam ts team p else ts)
    (TEAM_NAMES.map (fun n => (n, ([] : List Rec))))

/-- The result of `assignTeams`: the team rosters and the new assignment
map. -/
structure ATResult where
  teams : StrMap (List Rec)
  assignments : StrMap String
deriving DecidableEq

/-- The source `assignTeams`, with the random draws of the three shuffles
made an explicit parameter. -/
def assignTeams (rand : Nat → Nat → Nat) (participants : List Rec)
    (headers : List String) (existingAssignments : StrMap String) : ATResult :=
  let filtered := filteredOf participants headers
  let a1 := pinsOf participants headers existingAssignments
  let unassigned := unassignedOf participants headers existingAssignments
  let a2 :=
    if (existingAssignments : List (String × String)).isEmpty then
      balAssign a1 headers (allShuffledOf rand unassigned)
    else
      topUpAssign a1 headers unassigned
  { teams := buildTeams a2 filtered headers, assignments := a2 }

/-- JS truth-value of an attendance entry (`!!prev[key]`). -/
def attTruth (m : StrMap Bool) (k : String) : Bool :=
  (oget m k).getD false

/-- The source `toggleAttendance` on the attendance map: flip the truth
value at the participant key. -/
def toggleAttendance (att : StrMap Bool) (headers : List String) (p : Rec) :
    StrMap Bool :=
  oset att (getParticipantKey p headers) (! attTruth att (getParticipantKey p headers))

/-- JS object spread merge ... of two maps: start from the first and write
every entry of the second over it, so the second wins on collisions. -/
def mergeMaps {α : Type} (r l : StrMap α) : StrMap α :=
  (l : List (String × α)).foldl (fun acc kv => oset acc kv.1 kv.2) r

/-- The merged state one `loadData` pass computes and persists. -/
structure SyncResult where
  teams : StrMap (List Rec)
  assignments : StrMap String
  attendance : StrMap Bool
deriving DecidableEq

/-- The sync step of `loadData`: run `assignTeams` against the remote
assignments and merge remote attendance with local attendance, local
values winning. -/
def sync (rand : Nat → Nat → Nat) (participants : List Rec)
    (headers : List String) (remoteAssignments : StrMap String)
    (remoteAttendance localAttendance : StrMap Bool) : SyncResult :=
  let r := assignTeams rand participants headers remoteAssignments
  { teams := r.teams, assignments := r.assignments,
    attendance := mergeMaps remoteAttendance localAttendance }

/-! Spec-side definitions, written from the wording of the specification
for the refinement claims, to be compared with the source definitions. -/

/-- Spec wording: a header containing both a first-name marker and a
last-name marker. -/
def nameHeaderB (h : String) : Bool :=
  hasSub (strLower h) "nombre" && hasSub (strLower h) "apellido"

/-- Spec wording: a header containing a phone marker. -/
def phoneHeaderB (h : String) : Bool :=
  hasSub (strLower h) "celular" || hasSub (strLower h) "telefono"

/-- Spec wording: the trimmed value of the first column, falling back to a
full serialization of the record if even that is empty. -/
def firstColKeySpec (p : Rec) (headers : List String) : String :=
  let v := (headers.head?.map (rgetS p)).getD ""
  if v = "" then strTrim (jsonStringify p) else strTrim v

/-- Spec wording: the trimmed (case-preserved) value of the first header
containing a phone marker when non-empty, else the first-column fallback. -/
def phoneKeySpec (p : Rec) (headers : List String) : String :=
  match headers.find? phoneHeaderB with
  | some h => if rgetS p h = "" then firstColKeySpec p headers else strTrim (rgetS p h)
  | none => firstColKeySpec p headers

/-- The record key as the specification describes it: trimmed lower-cased
name value when non-empty, otherwise the phone value, otherwise the
first-column fallback. -/
def getParticipantKeySpec (p : Rec) (headers : List String) : String :=
  match headers.find? nameHeaderB with
  | some h => if rgetS p h = "" then phoneKeySpec p headers else strLower (strTrim (rgetS p h))
  | none => phoneKeySpec p headers

/-- Spec wording of the top-up pick: the first team in the fixed order
whose tally is smallest among all teams. -/
def specSmallest (c : String → Nat) : String :=
  (TEAM_NAMES.find? (fun t => TEAM_NAMES.all (fun u => decide (c t ≤ c u)))).getD ""

/-- Spec wording of one top-up step: assign the first smallest team and
increment its tally before the next record is processed. -/
def specTopUpStep (headers : List String)
    (mc : StrMap String × (String → Nat)) (p : Rec) :
    StrMap String × (String → Nat) :=
  let t := specSmallest mc.2
  (oset mc.1 (getParticipantKey p headers) t, bump mc.2 t)

/-- Spec wording of the whole top-up pass. -/
def specTopUpAssign (base : StrMap String) (headers : List String)
    (l : List Rec) : StrMap String :=
  (l.foldl (specTopUpStep headers) (base, countsInit base)).1

/-- `K` steps of the smallest-team tally dynamics (the tally component of
the top-up fold). -/
def gIter : Nat → (String → Nat) → (String → Nat)
  | 0, c => c
  | k + 1, c => gIter k (bump c (smallestTeam c))

/-- The team a round-robin pass hands out at global position `s`. -/
def rrTeam (s : Nat) : String := TEAM_NAMES.getD (s % 4) ""

/-- `K` steps of a round-robin pass over the fixed team order, starting at
position `s`. -/
def rrIter : Nat → Nat → (String → Nat) → (String → Nat)
  | _, 0, c => c
  | s, k + 1, c => rrIter (s + 1) k (bump c (rrTeam s))

/-- The smallest of the four team tallies. -/
def min4 (c : String → Nat) : Nat :=
  min (min (min (c "Rojo") (c "Azul")) (c "Verde")) (c "Amarillo")

/-- The largest of the four team tallies. -/
def max4 (c : String → Nat) : Nat :=
  max (max (max (c "Rojo") (c "Azul")) (c "Verde")) (c "Amarillo")

/-- The sum of the four team tallies. -/
def sum4 (c : String → Nat) : Nat :=
  c "Rojo" + c "Azul" + c "Verde" + c "Amarillo"

/-- The maximum-minus-minimum spread of the four team tallies. -/
def spread4 (c : String → Nat) : Nat :=
  max4 c - min4 c

/-- How many records of `l` the assignment map sends to team `t`. -/
def sizeOn (assigns : StrMap String) (headers : List String)
    (l : List Rec) (t : String) : Nat :=
  l.countP (fun p => decide (oget assigns (getParticipantKey p headers) = some t))

/-- How many positions below `n` sit on residue `j` modulo 4. -/
def modCount (j n : Nat) : Nat :=
  (List.range n).countP (fun i => decide (i % 4 = j))

/-! Basic lemmas on the ordered maps. -/

theorem oget_oset_self {α : Type} (m : StrMap α) (k : String) (v : α) :
    oget (oset m k v) k = some v := by
  induction m with
  | nil => simp [oget, oset]
  | cons kv t ih =>
    by_cases h : kv.1 = k
    · simp [oget, oset, h]
    · simp [oget, oset, h, ih]

theorem oget_oset_ne {α : Type} (m : StrMap α) (k k' : String) (v : α)
    (h : k' ≠ k) : oget (oset m k v) k' = oget m k' := by
  induction m with
  | nil => simp [oget, oset, Ne.symm h]
  | cons kv t ih =>
    by_cases hk : kv.1 = k
    · have hne : kv.1 ≠ k' := by rw [hk]; exact Ne.symm h
      simp [oget, oset, hk, hne, Ne.symm h]
    · simp [oget, oset, hk, ih]

theorem oget_nil_none {α : Type} (k : String) :
    oget ([] : StrMap α) k = none := rfl

theorem struthy_some (g : String) (hg : g ≠ "") :
    struthy (some g) = true := by
  simp [struthy, hg]

theorem team_ne_empty (g : String) (hg : g ∈ TEAM_NAMES) : g ≠ "" := by
  fin_cases hg <;> decide

/-! Preservation of untouched keys through the folds of `assignTeams`. -/

theorem pins_fold_preserve (hs : List String) (k : String)
    (l : List Rec) (m : StrMap String)
    (hl : ∀ p ∈ l, getParticipantKey p hs ≠ k) :
    oget (l.foldl (pinStep hs) m) k = oget m k := by
  induction l generalizing m with
  | nil => rfl
  | cons p t ih =>
    have hp : getParticipantKey p hs ≠ k := hl p (by simp)
    have ht : ∀ q ∈ t, getParticipantKey q hs ≠ k := fun q hq => hl q (by simp [hq])
    simp only [List.foldl_cons]
    rw [ih _ ht]
    unfold pinStep
    cases coordMatch p with
    | none => rfl
    | some e => exact oget_oset_ne _ _ _ _ (Ne.symm hp)

theorem topup_fold_preserve (hs : List String) (k : String)
    (l : List Rec) (m : StrMap String) (c : String → Nat)
    (hl : ∀ p ∈ l, getParticipantKey p hs ≠ k) :
    oget ((l.foldl (topUpStep hs) (m, c)).1) k = oget m k := by
  induction l generalizing m c with
  | nil => rfl
  | cons p t ih =>
    have hp : getParticipantKey p hs ≠ k := hl p (by simp)
    have ht : ∀ q ∈ t, getParticipantKey q hs ≠ k := fun q hq => hl q (by simp [hq])
    simp only [List.foldl_cons, topUpStep]
    rw [ih _ _ ht]
    exact oget_oset_ne _ _ _ _ (Ne.symm hp)

theorem bal_fold_preserve (hs : List String) (k : String)
    (l : List (Nat × Rec)) (m : StrMap String)
    (hl : ∀ ip ∈ l, getParticipantKey ip.2 hs ≠ k) :
    oget (l.foldl (fun m ip =>
      oset m (getParticipantKey ip.2 hs) (TEAM_NAMES.getD (ip.1 % 4) "")) m) k
      = oget m k := by
  induction l generalizing m with
  | nil => rfl
  | cons ip t ih =>
    have hp : getParticipantKey ip.2 hs ≠ k := hl ip (by simp)
    have ht : ∀ q ∈ t, getParticipantKey q.2 hs ≠ k := fun q hq => hl q (by simp [hq])
    simp only [List.foldl_cons]
    rw [ih _ ht]
    exact oget_oset_ne _ _ _ _ (Ne.symm hp)

/-- C2. Monotonic assignment: a RecordKey that already has a Group in the
existing assignments, and that is not the key of any override-matched
(coordinator) record of the run, is mapped by `assignTeams` to that same
Group; the Partitioner neither reassigns nor removes it. -/
theorem c2_monotonic_assignment (rand : Nat → Nat → Nat) (ps : List Rec)
    (hs : List String) (ex : StrMap String) (k g : String)
    (hg : g ∈ TEAM_NAMES) (hk : oget ex k = some g)
    (hnc : ∀ p ∈ coordsOf ps hs, getParticipantKey p hs ≠ k) :
    oget (assignTeams rand ps hs ex).assignments k = some g := by
  have ha1 : oget (pinsOf ps hs ex) k = some g := by
    rw [pinsOf, pins_fold_preserve hs k _ ex hnc]; exact hk
  have hexne : (ex : List (String × String)).isEmpty = false := by
    cases ex with
    | nil => simp [oget] at hk
    | cons kv t => rfl
  have hun : ∀ p ∈ unassignedOf ps hs ex, getParticipantKey p hs ≠ k := by
    intro p hp heq
    have hmem := List.mem_filter.mp hp
    have hstr := hmem.2
    rw [heq, ha1, struthy_some g (team_ne_empty g hg)] at hstr
    simp at hstr
  simp only [assignTeams, hexne, Bool.false_eq_true, if_false]
  rw [topUpAssign, topup_fold_preserve hs k _ _ _ hun]
  exact ha1

/-- C2 witness: a key assigned "Rojo" in the existing map keeps "Rojo"
after a run that brings one fresh record. -/
theorem c2_witness :
    oget (assignTeams (fun _ _ => 0) [[("NOMBRE Y APELLIDO", "Zz")]]
      ["NOMBRE Y APELLIDO"] [("aa", "Rojo")]).assignments "aa" = some "Rojo" :=
  c2_monotonic_assignment _ _ _ _ _ _ (by decide) (by decide)
    (by
      intro p hp
      rw [show coordsOf [[("NOMBRE Y APELLIDO", "Zz")]] ["NOMBRE Y APELLIDO"]
        = [] from by decide] at hp
      cases hp)

/-! Lookup characterisation of the object-spread merge. -/

theorem okeys_eq_map {α : Type} (m : StrMap α) : okeys m = m.map Prod.fst := by
  induction m with
  | nil => rfl
  | cons kv t ih => simp [okeys, ih]

theorem merge_fold_preserve {α : Type} (l : List (String × α))
    (r : StrMap α) (k : String) (hl : ∀ kv ∈ l, kv.1 ≠ k) :
    oget (l.foldl (fun acc kv => oset acc kv.1 kv.2) r) k = oget r k := by
  induction l generalizing r with
  | nil => rfl
  | cons kv t ih =>
    have hp : kv.1 ≠ k := hl kv (by simp)
    have ht : ∀ q ∈ t, q.1 ≠ k := fun q hq => hl q (by simp [hq])
    simp only [List.foldl_cons]
    rw [ih _ ht]
    exact oget_oset_ne _ _ _ _ (Ne.symm hp)

theorem mergeMaps_lookup {α : Type} (r l : StrMap α)
    (hnd : (okeys l).Nodup) (k : String) :
    oget (mergeMaps r l) k = ofirst (oget l k) (oget r k) := by
  induction l generalizing r with
  | nil => rfl
  | cons kv t ih =>
    rw [okeys_eq_map] at hnd
    have hnotin : kv.1 ∉ t.map Prod.fst := (List.nodup_cons.mp hnd).1
    have hndt : (okeys t).Nodup := by
      rw [okeys_eq_map]; exact (List.nodup_cons.mp hnd).2
    by_cases hk : kv.1 = k
    · subst hk
      have hpres : ∀ q ∈ t, q.1 ≠ kv.1 := by
        intro q hq heq
        exact hnotin (heq ▸ List.mem_map_of_mem Prod.fst hq)
      show oget (t.foldl (fun acc kv => oset acc kv.1 kv.2) (oset r kv.1 kv.2)) kv.1
        = ofirst (oget (kv :: t) kv.1) (oget r kv.1)
      rw [merge_fold_preserve t _ _ hpres, oget_oset_self]
      simp [oget, ofirst]
    · show oget (mergeMaps (oset r kv.1 kv.2) t) k
        = ofirst (oget (kv :: t) k) (oget r k)
      rw [ih _ hndt, oget_oset_ne _ _ _ _ (Ne.symm hk)]
      simp [oget, ofirst, hk]

/-- C5. Attendance merge: the merged attendance map is the object-spread
union of the remote and the local map, the local value winning on every
key collision; in particular merging a remote false with a local true
yields true, and a remote true with an empty local map survives. -/
theorem c5_attendance_merge :
    (∀ (r l : StrMap Bool), (okeys l).Nodup →
      ∀ k, oget (mergeMaps r l) k = ofirst (oget l k) (oget r k))
    ∧ mergeMaps [("k", false)] [("k", true)] = [("k", true)]
    ∧ mergeMaps [("k", true)] ([] : StrMap Bool) = [("k", true)] :=
  ⟨fun r l hnd k => mergeMaps_lookup r l hnd k, by decide, by decide⟩

/-- C5 witness: the lookup law evaluated at the spec example, with the
no-duplicate-keys hypothesis discharged concretely. -/
theorem c5_witness :
    oget (mergeMaps [("k", false)] [("k", true)]) "k"
      = ofirst (oget [("k", true)] "k") (oget [("k", false)] "k") :=
  c5_attendance_merge.1 [("k", false)] [("k", true)] (by decide) "k"

/-- C10. Toggling attendance negates the truth value stored at the
participant key, leaves every other key untouched, and toggling twice
restores the original truth value. -/
theorem c10_toggle_attendance (att : StrMap Bool) (hs : List String) (p : Rec) :
    attTruth (toggleAttendance att hs p) (getParticipantKey p hs)
      = ! attTruth att (getParticipantKey p hs)
    ∧ (∀ k, k ≠ getParticipantKey p hs →
        oget (toggleAttendance att hs p) k = oget att k)
    ∧ attTruth (toggleAttendance (toggleAttendance att hs p) hs p)
        (getParticipantKey p hs) = attTruth att (getParticipantKey p hs) := by
  refine ⟨?_, ?_, ?_⟩
  · simp [attTruth, toggleAttendance, oget_oset_self]
  · intro k hk
    exact oget_oset_ne _ _ _ _ hk
  · simp [attTruth, toggleAttendance, oget_oset_self]

/-- C10 witness: the three toggle facts at a concrete map and record. -/
theorem c10_witness :
    attTruth (toggleAttendance [("b", true)] ["NOMBRE Y APELLIDO"]
        [("NOMBRE Y APELLIDO", "Aa")]) "aa"
      = ! attTruth [("b", true)] "aa"
    ∧ oget (toggleAttendance [("b", true)] ["NOMBRE Y APELLIDO"]
        [("NOMBRE Y APELLIDO", "Aa")]) "b" = oget [("b", true)] "b"
    ∧ attTruth (toggleAttendance (toggleAttendance [("b", true)]
        ["NOMBRE Y APELLIDO"] [("NOMBRE Y APELLIDO", "Aa")])
        ["NOMBRE Y APELLIDO"] [("NOMBRE Y APELLIDO", "Aa")]) "aa"
      = attTruth [("b", true)] "aa" :=
  have h := c10_toggle_attendance [("b", true)] ["NOMBRE Y APELLIDO"]
    [("NOMBRE Y APELLIDO", "Aa")]
  ⟨h.1, h.2.1 "b" (by decide), h.2.2⟩

/-! Refinement of the record-key derivation against the spec wording. -/

theorem fallback_eq_spec (p : Rec) (hs : List String) :
    fallbackKey p hs = firstColKeySpec p hs := by
  cases hs with
  | nil => simp [fallbackKey, firstColKeySpec]
  | cons h t =>
    simp only [fallbackKey, firstColKeySpec, List.head?]
    by_cases hv : rgetS p h = ""
    · simp [hv]
    · simp [hv, bne_iff_ne, Ne.symm]

theorem phone_eq_spec (p : Rec) (hs : List String) :
    phoneKey p hs = phoneKeySpec p hs := by
  unfold phoneKey phoneKeySpec
  have : (fun h => hasSub (strLower h) "celular" || hasSub (strLower h) "telefono")
      = phoneHeaderB := rfl
  rw [this]
  cases hs.find? phoneHeaderB with
  | none => exact fallback_eq_spec p hs
  | some pf =>
    by_cases hv : rgetS p pf = ""
    · simp [hv, fallback_eq_spec]
    · simp [hv]

/-- C8. RecordKey derivation agrees with the specified chain: trimmed
lower-cased name value when non-empty, otherwise trimmed phone value when
non-empty, otherwise the trimmed first-column value, falling back to a
full serialization of the record. -/
theorem c8_key_refinement (p : Rec) (hs : List String) :
    getParticipantKey p hs = getParticipantKeySpec p hs := by
  unfold getParticipantKey getParticipantKeySpec
  have : (fun h => hasSub (strLower h) "nombre" && hasSub (strLower h) "apellido")
      = nameHeaderB := rfl
  rw [this]
  cases hs.find? nameHeaderB with
  | none => exact phone_eq_spec p hs
  | some nf =>
    by_cases hv : rgetS p nf = ""
    · simp [hv, phone_eq_spec]
    · simp [hv]

/-! Permutation facts about the Fisher-Yates shuffle. -/

theorem perm_cons_set {α : Type} (l : List α) (k : Nat) (x y : α)
    (h : l[k]? = some y) : List.Perm (y :: l.set k x) (x :: l) := by
  induction l generalizing k with
  | nil => simp at h
  | cons b t ih =>
    cases k with
    | zero =>
      have hy : y = b := by simpa using h.symm
      subst hy
      rw [List.set_cons_zero]
      exact List.Perm.swap x y t
    | succ n =>
      have ht : t[n]? = some y := by simpa using h
      rw [List.set_cons_succ]
      exact ((List.Perm.swap b y (t.set n x)).trans
        (List.Perm.cons b (ih n ht))).trans (List.Perm.swap x b t)

theorem lswap_perm {α : Type} (l : List α) (i j : Nat) :
    List.Perm (lswap l i j) l := by
  induction l generalizing i j with
  | nil => cases i <;> cases j <;> simp [lswap]
  | cons a t ih =>
    cases i with
    | zero =>
      cases j with
      | zero => simp [lswap]
      | succ m =>
        cases hy : t[m]? with
        | none => simp [lswap, hy]
        | some y =>
          simp only [lswap, List.getElem?_cons_zero, List.getElem?_cons_succ,
            hy, List.set_cons_zero, List.set_cons_succ]
          exact perm_cons_set t m a y hy
    | succ n =>
      cases j with
      | zero =>
        cases hx : t[n]? with
        | none => simp [lswap, hx]
        | some x =>
          simp only [lswap, List.getElem?_cons_zero, List.getElem?_cons_succ,
            hx, List.set_cons_zero, List.set_cons_succ]
          exact perm_cons_set t n a x hx
      | succ m =>
        cases hx : t[n]? with
        | none => simp [lswap, hx]
        | some x =>
          cases hy : t[m]? with
          | none => simp [lswap, hx, hy]
          | some y =>
            simp only [lswap, List.getElem?_cons_succ, hx, hy,
              List.set_cons_succ]
            have h2 := ih n m
            simp only [lswap, hx, hy] at h2
            exact List.Perm.cons a h2

theorem fyLoop_perm {α : Type} (r : Nat → Nat) (fuel : Nat) (l : List α) :
    List.Perm (fyLoop r l fuel) l := by
  induction fuel generalizing l with
  | zero => exact List.Perm.refl l
  | succ i ih =>
    exact List.Perm.trans (ih _) (lswap_perm l (i + 1) (r (i + 1) % (i + 2)))

theorem jsShuffle_perm {α : Type} (r : Nat → Nat) (l : List α) :
    List.Perm (jsShuffle r l) l :=
  fyLoop_perm r (l.length - 1) l

theorem mem_jsShuffle {α : Type} (r : Nat → Nat) (l : List α) (q : α)
    (h : q ∈ jsShuffle r l) : q ∈ l :=
  (jsShuffle_perm r l).mem_iff.mp h

theorem allShuffled_subset (rand : Nat → Nat → Nat) (u : List Rec) (q : Rec)
    (h : q ∈ allShuffledOf rand u) : q ∈ u := by
  unfold allShuffledOf at h
  rcases List.mem_append.mp h with h1 | h2
  · rcases List.mem_append.mp h1 with ha | hb
    · exact List.mem_of_mem_filter (mem_jsShuffle _ _ _ ha)
    · exact List.mem_of_mem_filter (List.mem_of_mem_filter (mem_jsShuffle _ _ _ hb))
  · exact List.mem_of_mem_filter (List.mem_of_mem_filter (mem_jsShuffle _ _ _ h2))

/-! Lookup of a pinned coordinator key through the pin fold. -/

theorem coord_val_ne_empty (e : String × String) (he : e ∈ COORDINADORES_FIJOS) :
    e.2 ≠ "" := by
  fin_cases he <;> decide

theorem pins_fold_mem (hs : List String) (p : Rec) (l : List Rec)
    (m : StrMap String) (hp : p ∈ l)
    (huniq : ∀ q ∈ l, getParticipantKey q hs = getParticipantKey p hs → q = p)
    (e : String × String) (he : coordMatch p = some e) :
    oget (l.foldl (pinStep hs) m) (getParticipantKey p hs) = some e.2 := by
  induction l generalizing m with
  | nil => cases hp
  | cons q t ih =>
    simp only [List.foldl_cons]
    by_cases hqp : q = p
    · subst hqp
      by_cases hqt : q ∈ t
      · exact ih _ hqt (fun q' hq' heq => huniq q' (by simp [hq']) heq)
      · have hpres : ∀ q' ∈ t, getParticipantKey q' hs ≠ getParticipantKey q hs := by
          intro q' hq' heq
          exact hqt ((huniq q' (by simp [hq']) heq) ▸ hq')
        rw [pins_fold_preserve hs _ t _ hpres]
        unfold pinStep
        rw [he]
        exact oget_oset_self _ _ _
    · have hpt : p ∈ t := by
        rcases List.mem_cons.mp hp with h | h
        · exact absurd h.symm hqp
        · exact h
      exact ih _ hpt (fun q' hq' heq => huniq q' (by simp [hq']) heq)

/-- C1 counterexample: a record whose display name matches the override
entry pinned to "Azul" but whose payment field contains "staff" is
filtered out before the override pass, so its key keeps its prior value
"Rojo" instead of being overwritten with the pinned Group. -/
theorem c1_counterexample :
    ("santos bustillos", "Azul") ∈ COORDINADORES_FIJOS
    ∧ hasSub (strLower (rgetS [("NOMBRE Y APELLIDO", "Santos Bustillos"),
        ("FORMA DE PAGO", "Staff")] "NOMBRE Y APELLIDO"))
        (strLower "santos bustillos") = true
    ∧ oget (assignTeams (fun _ _ => 0)
        [[("NOMBRE Y APELLIDO", "Santos Bustillos"), ("FORMA DE PAGO", "Staff")]]
        ["NOMBRE Y APELLIDO", "FORMA DE PAGO"]
        [("santos bustillos", "Rojo")]).assignments
        (getParticipantKey [("NOMBRE Y APELLIDO", "Santos Bustillos"),
          ("FORMA DE PAGO", "Staff")] ["NOMBRE Y APELLIDO", "FORMA DE PAGO"])
      = some "Rojo" := by
  decide

/-- C1 amended: every override-matched record that survives the staff
filter, and whose RecordKey is not shared with a different
override-matched record, has its key mapped to the Group of its first
matching override entry, overwriting any prior value and surviving the
balancing pass. -/
theorem c1_override_precedence (rand : Nat → Nat → Nat) (ps : List Rec)
    (hs : List String) (ex : StrMap String) (p : Rec)
    (hp : p ∈ coordsOf ps hs)
    (huniq : ∀ q ∈ coordsOf ps hs,
      getParticipantKey q hs = getParticipantKey p hs → q = p) :
    ∃ e, coordMatch p = some e
      ∧ oget (assignTeams rand ps hs ex).assignments (getParticipantKey p hs)
          = some e.2 := by
  have hco : esCoordinador p = true := (List.mem_filter.mp hp).2
  have hsome : (coordMatch p).isSome := by
    unfold coordMatch
    rw [List.find?_isSome]
    unfold esCoordinador at hco
    rcases List.any_eq_true.mp hco with ⟨e, he, hpe⟩
    exact ⟨e, he, hpe⟩
  obtain ⟨e, he⟩ := Option.isSome_iff_exists.mp hsome
  have hemem : e ∈ COORDINADORES_FIJOS := List.mem_of_find?_eq_some he
  have he2 : e.2 ≠ "" := coord_val_ne_empty e hemem
  have ha1 : oget (pinsOf ps hs ex) (getParticipantKey p hs) = some e.2 :=
    pins_fold_mem hs p _ ex hp huniq e he
  have hun : ∀ q ∈ unassignedOf ps hs ex,
      getParticipantKey q hs ≠ getParticipantKey p hs := by
    intro q hq heq
    have hstr := (List.mem_filter.mp hq).2
    rw [heq, ha1, struthy_some e.2 he2] at hstr
    simp at hstr
  refine ⟨e, he, ?_⟩
  simp only [assignTeams]
  by_cases hex : (ex : List (String × String)).isEmpty = true
  · rw [if_pos hex]
    unfold balAssign
    rw [bal_fold_preserve]
    · exact ha1
    · intro ip hip heq
      exact hun ip.2 (allShuffled_subset rand _ _ (List.snd_mem_of_mem_enum hip)) heq
  · rw [if_neg hex]
    unfold topUpAssign
    rw [topup_fold_preserve hs _ _ _ _ hun]
    exact ha1

/-- C1 witness: an override-matched record overwrites its prior "Rojo"
entry with the pinned "Azul". -/
theorem c1_witness :
    ∃ e, coordMatch [("NOMBRE Y APELLIDO", "Santos Bustillos"),
        ("FORMA DE PAGO", "qr")] = some e
      ∧ oget (assignTeams (fun _ _ => 0)
          [[("NOMBRE Y APELLIDO", "Santos Bustillos"), ("FORMA DE PAGO", "qr")]]
          ["NOMBRE Y APELLIDO", "FORMA DE PAGO"]
          [("santos bustillos", "Rojo")]).assignments
          (getParticipantKey [("NOMBRE Y APELLIDO", "Santos Bustillos"),
            ("FORMA DE PAGO", "qr")] ["NOMBRE Y APELLIDO", "FORMA DE PAGO"])
        = some e.2 :=
  c1_override_precedence (fun _ _ => 0) _ _ _ _ (by decide)
    (by
      intro q hq
      rw [show coordsOf [[("NOMBRE Y APELLIDO", "Santos Bustillos"),
        ("FORMA DE PAGO", "qr")]] ["NOMBRE Y APELLIDO", "FORMA DE PAGO"]
        = [[("NOMBRE Y APELLIDO", "Santos Bustillos"), ("FORMA DE PAGO", "qr")]]
        from by decide] at hq
      intro heq
      simpa using hq)

/-! Roster members of `buildTeams` come from the scanned pool. -/

theorem oget_pushTeam (s : StrMap (List Rec)) (t t' : String) (p : Rec) :
    oget (pushTeam s t p) t'
      = (oget s t').map (fun li => if t' = t then li ++ [p] else li) := by
  induction s with
  | nil => simp [pushTeam, oget]
  | cons kv tail ih =>
    show oget ((if kv.1 == t then (kv.1, kv.2 ++ [p]) else kv) :: pushTeam tail t p) t'
      = (oget (kv :: tail) t').map (fun li => if t' = t then li ++ [p] else li)
    by_cases ht : kv.1 = t
    · by_cases hk : kv.1 = t'
      · have htt : t' = t := by rw [← hk, ht]
        simp [oget, ht, hk, htt]
      · have hne : ¬ t = t' := fun hh => hk (by rw [ht, hh])
        simpa [oget, ht, hne] using ih
    · by_cases hk : kv.1 = t'
      · have htt : t' ≠ t := by rw [← hk]; exact ht
        simp [oget, ht, hk, htt]
      · simp only [oget, beq_iff_eq, ht, hk, if_false]
        exact ih

theorem oget_init_teams (names : List String) (t : String) (li : List Rec)
    (h : oget (names.map (fun n => (n, ([] : List Rec)))) t = some li) :
    li = [] := by
  induction names with
  | nil => simp [oget] at h
  | cons n tail ih =>
    by_cases hn : n = t
    · simp [oget, hn] at h
      exact h
    · simp [oget, hn] at h
      exact ih h

theorem buildTeams_fold_mem (hs : List String) (assigns : StrMap String)
    (xs : List Rec) (s : StrMap (List Rec)) (l : List Rec)
    (hinv : ∀ t li, oget s t = some li → ∀ q ∈ li, q ∈ l)
    (hxs : ∀ q ∈ xs, q ∈ l) :
    ∀ t li, oget (xs.foldl (fun ts p =>
      let team := (oget assigns (getParticipantKey p hs)).getD ""
      if team != "" && TEAM_NAMES.contains team then pushTeam ts team p else ts) s) t
      = some li → ∀ q ∈ li, q ∈ l := by
  induction xs generalizing s with
  | nil => exact hinv
  | cons p xs ih =>
    simp only [List.foldl_cons]
    apply ih
    · intro t li hget q hq
      set team := (oget assigns (getParticipantKey p hs)).getD "" with hteam
      by_cases hcond : (team != "" && TEAM_NAMES.contains team) = true
      · rw [if_pos hcond, oget_pushTeam] at hget
        cases hs0 : oget s t with
        | none => rw [hs0] at hget; cases hget
        | some li0 =>
          rw [hs0] at hget
          have hli : li = if t = team then li0 ++ [p] else li0 := by
            simpa using hget.symm
          by_cases htt : t = team
          · rw [hli, if_pos htt] at hq
            rcases List.mem_append.mp hq with h1 | h2
            · exact hinv t li0 hs0 q h1
            · have : q = p := by simpa using h2
              exact this ▸ hxs p (by simp)
          · rw [hli, if_neg htt] at hq
            exact hinv t li0 hs0 q hq
      · rw [if_neg hcond] at hget
        exact hinv t li hget q hq
    · exact fun q hq => hxs q (by simp [hq])

theorem buildTeams_mem (assigns : StrMap String) (l : List Rec)
    (hs : List String) (t : String) (li : List Rec)
    (h : oget (buildTeams assigns l hs) t = some li) :
    ∀ q ∈ li, q ∈ l := by
  refine buildTeams_fold_mem hs assigns l _ l ?_ (fun q hq => hq) t li h
  intro t' li' hinit q hq
  rw [oget_init_teams TEAM_NAMES t' li' hinit] at hq
  cases hq

/-- C7 counterexample: a staff-marked record whose RecordKey already sits
in the existing assignments keeps an AssignmentMap entry (its prior value),
so the returned map does have an entry at that key. -/
theorem c7_counterexample :
    formaPagoColumn ["NOMBRE Y APELLIDO", "FORMA DE PAGO"] = some "FORMA DE PAGO"
    ∧ hasSub (strLower (rgetS [("NOMBRE Y APELLIDO", "Juan Perez"),
        ("FORMA DE PAGO", "staff")] "FORMA DE PAGO")) "staff" = true
    ∧ oget (assignTeams (fun _ _ => 0)
        [[("NOMBRE Y APELLIDO", "Juan Perez"), ("FORMA DE PAGO", "staff")]]
        ["NOMBRE Y APELLIDO", "FORMA DE PAGO"]
        [("juan perez", "Rojo")]).assignments
        (getParticipantKey [("NOMBRE Y APELLIDO", "Juan Perez"),
          ("FORMA DE PAGO", "staff")] ["NOMBRE Y APELLIDO", "FORMA DE PAGO"])
      ≠ none := by
  decide

/-- C7 amended: a staff-marked record appears in no returned roster, and
when its RecordKey neither sits in the existing assignments nor is shared
with a filter-surviving record, the returned map has no entry at that
key. -/
theorem c7_staff_filtered (rand : Nat → Nat → Nat) (ps : List Rec)
    (hs : List String) (ex : StrMap String) (p : Rec) (c : String)
    (hc : formaPagoColumn hs = some c)
    (hstaff : hasSub (strLower (rgetS p c)) "staff" = true) :
    (∀ t li, oget (assignTeams rand ps hs ex).teams t = some li → p ∉ li)
    ∧ (oget ex (getParticipantKey p hs) = none →
       (∀ q ∈ filteredOf ps hs, getParticipantKey q hs ≠ getParticipantKey p hs) →
       oget (assignTeams rand ps hs ex).assignments (getParticipantKey p hs) = none) := by
  have hkeep : keepRecord (formaPagoColumn hs) p = false := by
    rw [hc]
    simp [keepRecord, hstaff]
  have hnotf : p ∉ filteredOf ps hs := by
    intro hmem
    have := (List.mem_filter.mp hmem).2
    rw [hkeep] at this
    cases this
  constructor
  · intro t li hget hmem
    exact hnotf (buildTeams_mem _ _ _ t li hget p hmem)
  · intro hex hnoshare
    have hcoords : ∀ q ∈ coordsOf ps hs, getParticipantKey q hs ≠ getParticipantKey p hs :=
      fun q hq => hnoshare q (List.mem_of_mem_filter hq)
    have ha1 : oget (pinsOf ps hs ex) (getParticipantKey p hs) = none := by
      rw [pinsOf, pins_fold_preserve hs _ _ ex hcoords]
      exact hex
    have hun : ∀ q ∈ unassignedOf ps hs ex,
        getParticipantKey q hs ≠ getParticipantKey p hs :=
      fun q hq => hnoshare q
        (List.mem_of_mem_filter (List.mem_of_mem_filter hq))
    simp only [assignTeams]
    by_cases hempty : (ex : List (String × String)).isEmpty = true
    · rw [if_pos hempty]
      unfold balAssign
      rw [bal_fold_preserve]
      · exact ha1
      · intro ip hip heq
        exact hun ip.2 (allShuffled_subset rand _ _ (List.snd_mem_of_mem_enum hip)) heq
    · rw [if_neg hempty]
      unfold topUpAssign
      rw [topup_fold_preserve hs _ _ _ _ hun]
      exact ha1

/-- C7 witness: with empty existing assignments, the staff record neither
lands in a roster slot under its key nor gets an assignment entry. -/
theorem c7_witness :
    oget (assignTeams (fun _ _ => 0)
      [[("NOMBRE Y APELLIDO", "Juan Perez"), ("FORMA DE PAGO", "staff")]]
      ["NOMBRE Y APELLIDO", "FORMA DE PAGO"] []).assignments "juan perez" = none :=
  (c7_staff_filtered (fun _ _ => 0)
      [[("NOMBRE Y APELLIDO", "Juan Perez"), ("FORMA DE PAGO", "staff")]]
      ["NOMBRE Y APELLIDO", "FORMA DE PAGO"] []
      [("NOMBRE Y APELLIDO", "Juan Perez"), ("FORMA DE PAGO", "staff")]
      "FORMA DE PAGO" (by decide) (by decide)).2 (by decide)
    (by
      intro q hq
      rw [show filteredOf [[("NOMBRE Y APELLIDO", "Juan Perez"),
        ("FORMA DE PAGO", "staff")]] ["NOMBRE Y APELLIDO", "FORMA DE PAGO"]
        = [] from by decide] at hq
      cases hq)

/-! The JS reduce pick equals the first tally-minimal team of the fixed
order. -/

theorem smallestTeam_eq_spec (c : String → Nat) :
    smallestTeam c = specSmallest c := by
  have e1 : smallestTeam c
      = List.foldl (fun a b => if c a ≤ c b then a else b) "Rojo"
          ["Azul", "Verde", "Amarillo"] := rfl
  rw [e1]
  simp only [List.foldl_cons, List.foldl_nil, specSmallest, TEAM_NAMES]
  by_cases h1 : c "Rojo" ≤ c "Azul"
  · rw [if_pos h1]
    by_cases h2 : c "Rojo" ≤ c "Verde"
    · rw [if_pos h2]
      by_cases h3 : c "Rojo" ≤ c "Amarillo"
      · rw [if_pos h3,
          List.find?_cons_of_pos _ (by simp [decide_eq_true_eq]; omega)]
        rfl
      · rw [if_neg h3,
          List.find?_cons_of_neg _ (by simp [decide_eq_true_eq]; omega),
          List.find?_cons_of_neg _ (by simp [decide_eq_true_eq]; omega),
          List.find?_cons_of_neg _ (by simp [decide_eq_true_eq]; omega),
          List.find?_cons_of_pos _ (by simp [decide_eq_true_eq]; omega)]
        rfl
    · rw [if_neg h2]
      by_cases h3 : c "Verde" ≤ c "Amarillo"
      · rw [if_pos h3,
          List.find?_cons_of_neg _ (by simp [decide_eq_true_eq]; omega),
          List.find?_cons_of_neg _ (by simp [decide_eq_true_eq]; omega),
          List.find?_cons_of_pos _ (by simp [decide_eq_true_eq]; omega)]
        rfl
      · rw [if_neg h3,
          List.find?_cons_of_neg _ (by simp [decide_eq_true_eq]; omega),
          List.find?_cons_of_neg _ (by simp [decide_eq_true_eq]; omega),
          List.find?_cons_of_neg _ (by simp [decide_eq_true_eq]; omega),
          List.find?_cons_of_pos _ (by simp [decide_eq_true_eq]; omega)]
        rfl
  · rw [if_neg h1]
    by_cases h2 : c "Azul" ≤ c "Verde"
    · rw [if_pos h2]
      by_cases h3 : c "Azul" ≤ c "Amarillo"
      · rw [if_pos h3,
          List.find?_cons_of_neg _ (by simp [decide_eq_true_eq]; omega),
          List.find?_cons_of_pos _ (by simp [decide_eq_true_eq]; omega)]
        rfl
      · rw [if_neg h3,
          List.find?_cons_of_neg _ (by simp [decide_eq_true_eq]; omega),
          List.find?_cons_of_neg _ (by simp [decide_eq_true_eq]; omega),
          List.find?_cons_of_neg _ (by simp [decide_eq_true_eq]; omega),
          List.find?_cons_of_pos _ (by simp [decide_eq_true_eq]; omega)]
        rfl
    · rw [if_neg h2]
      by_cases h3 : c "Verde" ≤ c "Amarillo"
      · rw [if_pos h3,
          List.find?_cons_of_neg _ (by simp [decide_eq_true_eq]; omega),
          List.find?_cons_of_neg _ (by simp [decide_eq_true_eq]; omega),
          List.find?_cons_of_pos _ (by simp [decide_eq_true_eq]; omega)]
        rfl
      · rw [if_neg h3,
          List.find?_cons_of_neg _ (by simp [decide_eq_true_eq]; omega),
          List.find?_cons_of_neg _ (by simp [decide_eq_true_eq]; omega),
          List.find?_cons_of_neg _ (by simp [decide_eq_true_eq]; omega),
          List.find?_cons_of_pos _ (by simp [decide_eq_true_eq]; omega)]
        rfl

/-- C4. Incremental top-up: with non-empty existing assignments, the
returned map equals the fold that assigns each unassigned record, in input
order, to the first Group of the fixed order whose running tally is
smallest among all Groups, incrementing that tally before the next
record. -/
theorem c4_topup_smallest (rand : Nat → Nat → Nat) (ps : List Rec)
    (hs : List String) (ex : StrMap String)
    (hex : (ex : List (String × String)) ≠ []) :
    (assignTeams rand ps hs ex).assignments
      = specTopUpAssign (pinsOf ps hs ex) hs (unassignedOf ps hs ex) := by
  have hne : ¬ (ex : List (String × String)).isEmpty = true := by
    cases ex with
    | nil => exact absurd rfl hex
    | cons kv t => simp [List.isEmpty]
  simp only [assignTeams]
  rw [if_neg hne]
  unfold topUpAssign specTopUpAssign
  have hstep : topUpStep hs = specTopUpStep hs := by
    funext mc p
    unfold topUpStep specTopUpStep
    rw [smallestTeam_eq_spec]
  rw [hstep]

/-- C4 witness: the top-up refinement at a concrete non-empty assignment
map and one fresh record. -/
theorem c4_witness :
    (assignTeams (fun _ _ => 0) [[("NOMBRE Y APELLIDO", "Aa")]]
      ["NOMBRE Y APELLIDO"] [("x", "Rojo")]).assignments
      = specTopUpAssign
          (pinsOf [[("NOMBRE Y APELLIDO", "Aa")]] ["NOMBRE Y APELLIDO"]
            [("x", "Rojo")])
          ["NOMBRE Y APELLIDO"]
          (unassignedOf [[("NOMBRE Y APELLIDO", "Aa")]] ["NOMBRE Y APELLIDO"]
            [("x", "Rojo")]) :=
  c4_topup_smallest (fun _ _ => 0) _ _ _ (by decide)

/-- C6 counterexample: with empty existing assignments the balanced split
consults the random shuffle, so two sync passes over identical snapshots
can return different merged assignment maps (here the two possible draws
for a two-record cohort give opposite team orders). -/
theorem c6_counterexample :
    sync (fun _ i => i)
      [[("NOMBRE Y APELLIDO", "Aa")], [("NOMBRE Y APELLIDO", "Bb")]]
      ["NOMBRE Y APELLIDO"] [] [] []
    ≠ sync (fun _ _ => 0)
      [[("NOMBRE Y APELLIDO", "Aa")], [("NOMBRE Y APELLIDO", "Bb")]]
      ["NOMBRE Y APELLIDO"] [] [] [] := by
  decide

/-- C6 amended: when the remote assignment snapshot is non-empty the sync
step is deterministic, so two passes over identical snapshots yield
identical merged assignment and attendance maps whatever the random draws
of each pass were. -/
theorem c6_sync_idempotent (rand1 rand2 : Nat → Nat → Nat) (ps : List Rec)
    (hs : List String) (ra : StrMap String) (rt lt : StrMap Bool)
    (hne : (ra : List (String × String)) ≠ []) :
    sync rand1 ps hs ra rt lt = sync rand2 ps hs ra rt lt := by
  have hempty : ¬ (ra : List (String × String)).isEmpty = true := by
    cases ra with
    | nil => exact absurd rfl hne
    | cons kv t => simp [List.isEmpty]
  unfold sync
  have hassign : assignTeams rand1 ps hs ra = assignTeams rand2 ps hs ra := by
    simp only [assignTeams]
    simp only [if_neg hempty]
  rw [hassign]

/-- C6 witness: two sync passes with different random draws over the same
non-empty snapshots agree. -/
theorem c6_witness :
    sync (fun _ i => i) [[("NOMBRE Y APELLIDO", "Aa")]] ["NOMBRE Y APELLIDO"]
      [("x", "Rojo")] [("k", true)] [("k", false)]
    = sync (fun _ _ => 0) [[("NOMBRE Y APELLIDO", "Aa")]] ["NOMBRE Y APELLIDO"]
      [("x", "Rojo")] [("k", true)] [("k", false)] :=
  c6_sync_idempotent (fun _ i => i) (fun _ _ => 0) _ _ _ _ _ (by decide)

/-! Tally arithmetic for the smallest-team dynamics. -/

theorem bump_apply (c : String → Nat) (t u : String) :
    bump c t u = if u = t then c t + 1 else c u :=
  Function.update_apply c t (c t + 1) u

theorem bump_le (c : String → Nat) (t u : String) : c u ≤ bump c t u := by
  rw [bump_apply]
  split_ifs with h
  · subst h; omega
  · exact le_refl _

theorem bump_sum (c : String → Nat) (t : String) (ht : t ∈ TEAM_NAMES) :
    sum4 (bump c t) = sum4 c + 1 := by
  fin_cases ht <;> simp [sum4, bump_apply] <;> omega

theorem min4_le (c : String → Nat) (t : String) (ht : t ∈ TEAM_NAMES) :
    min4 c ≤ c t := by
  fin_cases ht <;> unfold min4 <;> omega

theorem le_max4 (c : String → Nat) (t : String) (ht : t ∈ TEAM_NAMES) :
    c t ≤ max4 c := by
  fin_cases ht <;> unfold max4 <;> omega

theorem min4_mono (a b : String → Nat) (h : ∀ t ∈ TEAM_NAMES, a t ≤ b t) :
    min4 a ≤ min4 b := by
  have h1 := h "Rojo" (by decide)
  have h2 := h "Azul" (by decide)
  have h3 := h "Verde" (by decide)
  have h4 := h "Amarillo" (by decide)
  unfold min4
  omega

theorem min4_attained (c : String → Nat) :
    min4 c = c "Rojo" ∨ min4 c = c "Azul" ∨ min4 c = c "Verde"
      ∨ min4 c = c "Amarillo" := by
  unfold min4; omega

theorem max4_attained (c : String → Nat) :
    max4 c = c "Rojo" ∨ max4 c = c "Azul" ∨ max4 c = c "Verde"
      ∨ max4 c = c "Amarillo" := by
  unfold max4; omega

theorem smallestTeam_min (c : String → Nat) :
    smallestTeam c ∈ TEAM_NAMES
      ∧ ∀ t ∈ TEAM_NAMES, c (smallestTeam c) ≤ c t := by
  rw [smallestTeam_eq_spec]
  unfold specSmallest
  cases hf : TEAM_NAMES.find? (fun t => TEAM_NAMES.all (fun u => decide (c t ≤ c u))) with
  | none =>
    exfalso
    rw [List.find?_eq_none] at hf
    rcases min4_attained c with h | h | h | h
    · apply hf "Rojo" (by decide)
      simp only [TEAM_NAMES, List.all_cons, List.all_nil, Bool.and_eq_true,
        decide_eq_true_eq, and_true]
      unfold min4 at h
      omega
    · apply hf "Azul" (by decide)
      simp only [TEAM_NAMES, List.all_cons, List.all_nil, Bool.and_eq_true,
        decide_eq_true_eq, and_true]
      unfold min4 at h
      omega
    · apply hf "Verde" (by decide)
      simp only [TEAM_NAMES, List.all_cons, List.all_nil, Bool.and_eq_true,
        decide_eq_true_eq, and_true]
      unfold min4 at h
      omega
    · apply hf "Amarillo" (by decide)
      simp only [TEAM_NAMES, List.all_cons, List.all_nil, Bool.and_eq_true,
        decide_eq_true_eq, and_true]
      unfold min4 at h
      omega
  | some t0 =>
    have hmem : t0 ∈ TEAM_NAMES := List.mem_of_find?_eq_some hf
    have hpred := List.find?_some hf
    simp only [List.all_eq_true, decide_eq_true_eq] at hpred
    exact ⟨by simpa using hmem, by simpa using hpred⟩

/-- The running tallies of the top-up fold of `assignTeams` follow the
`gIter` dynamics: each step bumps the smallest team. -/
theorem topup_counts_eq_gIter (hs : List String) (l : List Rec)
    (m : StrMap String) (c : String → Nat) :
    (l.foldl (topUpStep hs) (m, c)).2 = gIter l.length c := by
  induction l generalizing m c with
  | nil => rfl
  | cons p t ih =>
    simp only [List.foldl_cons, List.length_cons]
    exact ih _ _

theorem gIter_inv (k : Nat) (c0 : String → Nat) :
    (∀ t ∈ TEAM_NAMES, c0 t ≤ gIter k c0 t)
    ∧ (∀ t ∈ TEAM_NAMES, gIter k c0 t ≤ max (c0 t) (min4 (gIter k c0) + 1))
    ∧ sum4 (gIter k c0) = sum4 c0 + k := by
  induction k generalizing c0 with
  | zero => exact ⟨fun t _ => le_refl _, fun t _ => le_max_left _ _, rfl⟩
  | succ k ih =>
    have hu := smallestTeam_min c0
    obtain ⟨ih1, ih2, ih3⟩ := ih (bump c0 (smallestTeam c0))
    have humem : smallestTeam c0 ∈ TEAM_NAMES := hu.1
    have humin : ∀ t ∈ TEAM_NAMES, c0 (smallestTeam c0) ≤ c0 t := hu.2
    have hb_ge : ∀ t ∈ TEAM_NAMES, c0 t ≤ bump c0 (smallestTeam c0) t :=
      fun t _ => bump_le c0 (smallestTeam c0) t
    have hmin1 : min4 c0 ≤ min4 (bump c0 (smallestTeam c0)) := min4_mono _ _ hb_ge
    have hmin2 : min4 (bump c0 (smallestTeam c0))
        ≤ min4 (gIter k (bump c0 (smallestTeam c0))) := min4_mono _ _ ih1
    have hc0u : c0 (smallestTeam c0) = min4 c0 := by
      refine le_antisymm ?_ (min4_le c0 _ humem)
      rcases min4_attained c0 with h | h | h | h <;> rw [h]
      · exact humin "Rojo" (by decide)
      · exact humin "Azul" (by decide)
      · exact humin "Verde" (by decide)
      · exact humin "Amarillo" (by decide)
    refine ⟨?_, ?_, ?_⟩
    · intro t ht
      exact le_trans (hb_ge t ht) (ih1 t ht)
    · intro t ht
      show gIter k (bump c0 (smallestTeam c0)) t
        ≤ max (c0 t) (min4 (gIter k (bump c0 (smallestTeam c0))) + 1)
      have h2 := ih2 t ht
      have h3 : bump c0 (smallestTeam c0) t
          ≤ max (c0 t) (min4 (gIter k (bump c0 (smallestTeam c0))) + 1) := by
        rw [bump_apply]
        split_ifs with hteq
        · omega
        · exact le_max_left _ _
      omega
    · show sum4 (gIter k (bump c0 (smallestTeam c0))) = sum4 c0 + (k + 1)
      rw [ih3, bump_sum c0 _ humem]
      omega

theorem rrTeam_mem (s : Nat) : rrTeam s ∈ TEAM_NAMES := by
  have h4 : s % 4 < 4 := Nat.mod_lt _ (by norm_num)
  unfold rrTeam
  rcases hr : s % 4 with _ | _ | _ | _ | n
  · decide
  · decide
  · decide
  · decide
  · omega

theorem rrIter_facts (k : Nat) : ∀ (s : Nat) (c : String → Nat),
    (∀ t ∈ TEAM_NAMES, c t ≤ rrIter s k c t)
    ∧ sum4 (rrIter s k c) = sum4 c + k := by
  induction k with
  | zero => exact fun s c => ⟨fun t _ => le_refl _, rfl⟩
  | succ k ih =>
    intro s c
    have hmem : rrTeam s ∈ TEAM_NAMES := rrTeam_mem s
    obtain ⟨ih1, ih2⟩ := ih (s + 1) (bump c (rrTeam s))
    refine ⟨?_, ?_⟩
    · intro t ht
      exact le_trans (bump_le c (rrTeam s) t) (ih1 t ht)
    · show sum4 (rrIter (s + 1) k (bump c (rrTeam s))) = sum4 c + (k + 1)
      rw [ih2, bump_sum c _ hmem]
      omega

/-- C9. Top-up minimality: from any starting tallies, assigning `K`
records one by one to the smallest team never leaves a larger
maximum-minus-minimum spread than handing the same `K` records out in one
round-robin pass over the fixed team order from the same starting
tallies. -/
theorem c9_topup_minimality (c : String → Nat) (k : Nat) :
    spread4 (gIter k c) ≤ spread4 (rrIter 0 k c) := by
  obtain ⟨hg1, hg2, hg3⟩ := gIter_inv k c
  obtain ⟨hf1, hf2⟩ := rrIter_facts k 0 c
  have b1 := hg2 "Rojo" (by decide)
  have b2 := hg2 "Azul" (by decide)
  have b3 := hg2 "Verde" (by decide)
  have b4 := hg2 "Amarillo" (by decide)
  have fc1 := hf1 "Rojo" (by decide)
  have fc2 := hf1 "Azul" (by decide)
  have fc3 := hf1 "Verde" (by decide)
  have fc4 := hf1 "Amarillo" (by decide)
  have fm1 := min4_le (rrIter 0 k c) "Rojo" (by decide)
  have fm2 := min4_le (rrIter 0 k c) "Azul" (by decide)
  have fm3 := min4_le (rrIter 0 k c) "Verde" (by decide)
  have fm4 := min4_le (rrIter 0 k c) "Amarillo" (by decide)
  have gm1 := min4_le (gIter k c) "Rojo" (by decide)
  have gm2 := min4_le (gIter k c) "Azul" (by decide)
  have gm3 := min4_le (gIter k c) "Verde" (by decide)
  have gm4 := min4_le (gIter k c) "Amarillo" (by decide)
  have fx1 := le_max4 (rrIter 0 k c) "Rojo" (by decide)
  have fx2 := le_max4 (rrIter 0 k c) "Azul" (by decide)
  have fx3 := le_max4 (rrIter 0 k c) "Verde" (by decide)
  have fx4 := le_max4 (rrIter 0 k c) "Amarillo" (by decide)
  unfold sum4 at hg3 hf2
  have hL2 : min4 (rrIter 0 k c) ≤ min4 (gIter k c) := by
    by_contra hlt
    push_neg at hlt
    rcases min4_attained (gIter k c) with h | h | h | h <;> omega
  have hL1 : max4 (gIter k c) ≤ min4 (gIter k c)
      ∨ max4 (gIter k c) ≤ max4 (rrIter 0 k c) := by
    by_cases hMg : max4 (gIter k c) ≤ min4 (gIter k c)
    · exact Or.inl hMg
    · refine Or.inr ?_
      rcases max4_attained (gIter k c) with h | h | h | h <;> omega
  unfold spread4
  rcases hL1 with h | h <;> omega

/-! Coverage and balance of the initial balanced split. -/

theorem allShuffled_perm (rand : Nat → Nat → Nat) (u : List Rec) :
    List.Perm (allShuffledOf rand u) u := by
  unfold allShuffledOf
  have h1 := jsShuffle_perm (rand 0) (hombresOf u)
  have h2 := jsShuffle_perm (rand 1) (mujeresOf u)
  have h3 := jsShuffle_perm (rand 2) (otrosCohortOf u)
  have hmo : List.Perm (mujeresOf u ++ otrosCohortOf u) (restOf u) := by
    unfold mujeresOf otrosCohortOf
    exact List.filter_append_perm _ _
  have hhr : List.Perm (hombresOf u ++ restOf u) u := by
    unfold hombresOf restOf
    exact List.filter_append_perm _ _
  have hassoc : jsShuffle (rand 0) (hombresOf u) ++ jsShuffle (rand 1) (mujeresOf u)
      ++ jsShuffle (rand 2) (otrosCohortOf u)
      = jsShuffle (rand 0) (hombresOf u) ++ (jsShuffle (rand 1) (mujeresOf u)
        ++ jsShuffle (rand 2) (otrosCohortOf u)) := by
    rw [List.append_assoc]
  rw [hassoc]
  exact ((h1.append (h2.append h3)).trans
    (List.Perm.append_left (hombresOf u) hmo)).trans hhr

theorem balFold_get (hs : List String) (pairs : List (Nat × Rec))
    (m : StrMap String)
    (hnd : (pairs.map (fun ip => getParticipantKey ip.2 hs)).Nodup) :
    ∀ ip ∈ pairs, oget (pairs.foldl (fun m ip =>
        oset m (getParticipantKey ip.2 hs) (TEAM_NAMES.getD (ip.1 % 4) "")) m)
      (getParticipantKey ip.2 hs) = some (TEAM_NAMES.getD (ip.1 % 4) "") := by
  induction pairs generalizing m with
  | nil => intro ip h; cases h
  | cons q rest ih =>
    intro ip hip
    simp only [List.map_cons, List.nodup_cons] at hnd
    obtain ⟨hq_notin, hnd_rest⟩ := hnd
    simp only [List.foldl_cons]
    rcases List.mem_cons.mp hip with heq | hmem
    · subst heq
      have hpres : ∀ jp ∈ rest, getParticipantKey jp.2 hs ≠ getParticipantKey ip.2 hs := by
        intro jp hjp hkeq
        exact hq_notin (hkeq ▸ List.mem_map_of_mem _ hjp)
      rw [bal_fold_preserve hs _ rest _ hpres]
      exact oget_oset_self _ _ _
    · exact ih _ hnd_rest ip hmem

theorem balAssign_lookup (hs : List String) (l : List Rec) (m : StrMap String)
    (hnd : (l.map (fun p => getParticipantKey p hs)).Nodup)
    (i : Nat) (hi : i < l.length) :
    oget (balAssign m hs l) (getParticipantKey (l[i]) hs)
      = some (TEAM_NAMES.getD (i % 4) "") := by
  have hnd2 : (l.enum.map (fun ip => getParticipantKey ip.2 hs)).Nodup := by
    have hcomp : l.enum.map (fun ip => getParticipantKey ip.2 hs)
        = l.map (fun p => getParticipantKey p hs) := by
      rw [show (fun (ip : Nat × Rec) => getParticipantKey ip.2 hs)
        = (fun p => getParticipantKey p hs) ∘ Prod.snd from rfl,
        ← List.map_map, List.enum_map_snd]
    rw [hcomp]
    exact hnd
  have hlen : i < l.enum.length := by simpa [List.enum_length] using hi
  have hmem : (i, l[i]) ∈ l.enum := by
    rw [← List.getElem_enum l i hlen]
    exact List.getElem_mem hlen
  exact balFold_get hs l.enum m hnd2 (i, l[i]) hmem

theorem countP_eq_range {α : Type} (l : List α) (P : α → Bool) (Q : Nat → Bool)
    (h : ∀ i (hi : i < l.length), P (l[i]) = Q i) :
    l.countP P = (List.range l.length).countP Q := by
  induction l generalizing Q with
  | nil => rfl
  | cons a t ih =>
    have h0 : P a = Q 0 := h 0 (by simp)
    have ht : ∀ i (hi : i < t.length), P (t[i]) = Q (i + 1) := by
      intro i hi
      have := h (i + 1) (by simpa using Nat.succ_lt_succ hi)
      simpa using this
    rw [List.countP_cons, List.length_cons, List.range_succ_eq_map,
      List.countP_cons, List.countP_map, h0, ih (fun i => Q (i + 1)) ht]
    rfl

theorem rrInd_rojo :
    (fun i => decide (rrTeam i = "Rojo")) = fun i => decide (i % 4 = 0) := by
  funext i
  have h4 : i % 4 < 4 := Nat.mod_lt _ (by norm_num)
  unfold rrTeam
  rcases hr : i % 4 with _ | _ | _ | _ | n
  · decide
  · decide
  · decide
  · decide
  · omega

theorem rrInd_azul :
    (fun i => decide (rrTeam i = "Azul")) = fun i => decide (i % 4 = 1) := by
  funext i
  have h4 : i % 4 < 4 := Nat.mod_lt _ (by norm_num)
  unfold rrTeam
  rcases hr : i % 4 with _ | _ | _ | _ | n
  · decide
  · decide
  · decide
  · decide
  · omega

theorem rrInd_verde :
    (fun i => decide (rrTeam i = "Verde")) = fun i => decide (i % 4 = 2) := by
  funext i
  have h4 : i % 4 < 4 := Nat.mod_lt _ (by norm_num)
  unfold rrTeam
  rcases hr : i % 4 with _ | _ | _ | _ | n
  · decide
  · decide
  · decide
  · decide
  · omega

theorem rrInd_amarillo :
    (fun i => decide (rrTeam i = "Amarillo")) = fun i => decide (i % 4 = 3) := by
  funext i
  have h4 : i % 4 < 4 := Nat.mod_lt _ (by norm_num)
  unfold rrTeam
  rcases hr : i % 4 with _ | _ | _ | _ | n
  · decide
  · decide
  · decide
  · decide
  · omega

theorem modCount_succ (j N : Nat) :
    modCount j (N + 1) = modCount j N + (if N % 4 = j then 1 else 0) := by
  unfold modCount
  rw [List.range_succ, List.countP_append]
  simp only [List.countP_cons, List.countP_nil, decide_eq_true_eq]
  split_ifs with h <;> simp [h]

theorem modCount_formula (j N : Nat) (hj : j < 4) :
    modCount j N = N / 4 + (if j < N % 4 then 1 else 0) := by
  induction N with
  | zero => simp [modCount]
  | succ N ih =>
    rw [modCount_succ, ih]
    by_cases h1 : N % 4 = j
    · rw [if_pos h1]
      by_cases h3 : j < (N + 1) % 4
      · rw [if_neg (by omega), if_pos h3]
        omega
      · rw [if_neg (by omega), if_neg h3]
        omega
    · rw [if_neg h1]
      by_cases h2 : j < N % 4
      · by_cases h3 : j < (N + 1) % 4
        · rw [if_pos h2, if_pos h3]
          omega
        · rw [if_pos h2, if_neg h3]
          omega
      · by_cases h3 : j < (N + 1) % 4
        · rw [if_neg h2, if_pos h3]
          omega
        · rw [if_neg h2, if_neg h3]
          omega

theorem modCount_bound (j1 j2 N : Nat) (h1 : j1 < 4) (h2 : j2 < 4) :
    modCount j1 N ≤ modCount j2 N + ((N + 3) / 4 - N / 4) := by
  rw [modCount_formula j1 N h1, modCount_formula j2 N h2]
  split_ifs <;> omega

/-- C3 counterexample: two identical records share a RecordKey, the
second overwrites the first in the balanced split, and the resulting
sizes (2 on "Azul", 0 on "Rojo") violate the ceil-floor balance bound for
N = 2 even under the identity shuffle outcome. -/
theorem c3_counterexample :
    ¬ (sizeOn (assignTeams (fun _ i => i)
          [[("NOMBRE Y APELLIDO", "Ana B")], [("NOMBRE Y APELLIDO", "Ana B")]]
          ["NOMBRE Y APELLIDO"] []).assignments ["NOMBRE Y APELLIDO"]
        (unassignedOf [[("NOMBRE Y APELLIDO", "Ana B")],
          [("NOMBRE Y APELLIDO", "Ana B")]] ["NOMBRE Y APELLIDO"] []) "Azul"
      ≤ sizeOn (assignTeams (fun _ i => i)
          [[("NOMBRE Y APELLIDO", "Ana B")], [("NOMBRE Y APELLIDO", "Ana B")]]
          ["NOMBRE Y APELLIDO"] []).assignments ["NOMBRE Y APELLIDO"]
        (unassignedOf [[("NOMBRE Y APELLIDO", "Ana B")],
          [("NOMBRE Y APELLIDO", "Ana B")]] ["NOMBRE Y APELLIDO"] []) "Rojo"
        + (((unassignedOf [[("NOMBRE Y APELLIDO", "Ana B")],
            [("NOMBRE Y APELLIDO", "Ana B")]] ["NOMBRE Y APELLIDO"] []).length + 3) / 4
          - (unassignedOf [[("NOMBRE Y APELLIDO", "Ana B")],
            [("NOMBRE Y APELLIDO", "Ana B")]] ["NOMBRE Y APELLIDO"] []).length / 4)) := by
  decide

/-- C3 amended: with empty existing assignments and pairwise distinct
RecordKeys among the unassigned records, every unassigned record is
assigned to exactly one of the four fixed Groups, and whatever the three
per-cohort shuffle outcomes, any two group sizes over those records differ
by at most ceil(N/4) - floor(N/4). -/
theorem c3_balanced_split (rand : Nat → Nat → Nat) (ps : List Rec)
    (hs : List String)
    (hnd : ((unassignedOf ps hs []).map (fun p => getParticipantKey p hs)).Nodup) :
    (∀ p ∈ unassignedOf ps hs [], ∃ t ∈ TEAM_NAMES,
        oget (assignTeams rand ps hs []).assignments (getParticipantKey p hs)
          = some t)
    ∧ (∀ t1 ∈ TEAM_NAMES, ∀ t2 ∈ TEAM_NAMES,
        sizeOn (assignTeams rand ps hs []).assignments hs
            (unassignedOf ps hs []) t1
          ≤ sizeOn (assignTeams rand ps hs []).assignments hs
              (unassignedOf ps hs []) t2
            + (((unassignedOf ps hs []).length + 3) / 4
              - (unassignedOf ps hs []).length / 4)) := by
  have hA : (assignTeams rand ps hs []).assignments
      = balAssign (pinsOf ps hs []) hs
          (allShuffledOf rand (unassignedOf ps hs [])) := by
    simp [assignTeams]
  have hperm := allShuffled_perm rand (unassignedOf ps hs [])
  have hndL : ((allShuffledOf rand (unassignedOf ps hs [])).map
      (fun p => getParticipantKey p hs)).Nodup := ((hperm.map _).nodup_iff).mpr hnd
  have hlen : (allShuffledOf rand (unassignedOf ps hs [])).length
      = (unassignedOf ps hs []).length := hperm.length_eq
  constructor
  · intro p hp
    have hpL : p ∈ allShuffledOf rand (unassignedOf ps hs []) :=
      hperm.mem_iff.mpr hp
    obtain ⟨i, hi, hig⟩ := List.mem_iff_getElem.mp hpL
    refine ⟨TEAM_NAMES.getD (i % 4) "", rrTeam_mem i, ?_⟩
    rw [hA, ← hig]
    exact balAssign_lookup hs _ _ hndL i hi
  · intro t1 ht1 t2 ht2
    have hsz : ∀ t, sizeOn (assignTeams rand ps hs []).assignments hs
        (unassignedOf ps hs []) t
        = (List.range (allShuffledOf rand (unassignedOf ps hs [])).length).countP
            (fun i => decide (rrTeam i = t)) := by
      intro t
      have hstep : sizeOn (assignTeams rand ps hs []).assignments hs
          (unassignedOf ps hs []) t
          = sizeOn (assignTeams rand ps hs []).assignments hs
              (allShuffledOf rand (unassignedOf ps hs [])) t := by
        unfold sizeOn
        exact (hperm.countP_eq _).symm
      rw [hstep]
      unfold sizeOn
      refine countP_eq_range _ _ _ ?_
      intro i hi
      rw [hA, balAssign_lookup hs _ _ hndL i hi]
      apply decide_eq_decide.mpr
      unfold rrTeam
      simp
    rw [hsz t1, hsz t2, hlen]
    fin_cases ht1 <;> fin_cases ht2 <;>
      simp only [rrInd_rojo, rrInd_azul, rrInd_verde, rrInd_amarillo] <;>
      exact modCount_bound _ _ _ (by norm_num) (by norm_num)

/-- C3 witness: two distinct-keyed records, identity shuffle draws; both
conjuncts of the balanced-split property instantiated. -/
theorem c3_witness :
    (∃ t ∈ TEAM_NAMES,
      oget (assignTeams (fun _ i => i)
          [[("NOMBRE Y APELLIDO", "Aa")], [("NOMBRE Y APELLIDO", "Bb")]]
          ["NOMBRE Y APELLIDO"] []).assignments
        (getParticipantKey [("NOMBRE Y APELLIDO", "Aa")] ["NOMBRE Y APELLIDO"])
        = some t)
    ∧ sizeOn (assignTeams (fun _ i => i)
          [[("NOMBRE Y APELLIDO", "Aa")], [("NOMBRE Y APELLIDO", "Bb")]]
          ["NOMBRE Y APELLIDO"] []).assignments ["NOMBRE Y APELLIDO"]
        (unassignedOf [[("NOMBRE Y APELLIDO", "Aa")],
          [("NOMBRE Y APELLIDO", "Bb")]] ["NOMBRE Y APELLIDO"] []) "Rojo"
      ≤ sizeOn (assignTeams (fun _ i => i)
          [[("NOMBRE Y APELLIDO", "Aa")], [("NOMBRE Y APELLIDO", "Bb")]]
          ["NOMBRE Y APELLIDO"] []).assignments ["NOMBRE Y APELLIDO"]
        (unassignedOf [[("NOMBRE Y APELLIDO", "Aa")],
          [("NOMBRE Y APELLIDO", "Bb")]] ["NOMBRE Y APELLIDO"] []) "Azul"
        + (((unassignedOf [[("NOMBRE Y APELLIDO", "Aa")],
            [("NOMBRE Y APELLIDO", "Bb")]] ["NOMBRE Y APELLIDO"] []).length + 3) / 4
          - (unassignedOf [[("NOMBRE Y APELLIDO", "Aa")],
            [("NOMBRE Y APELLIDO", "Bb")]] ["NOMBRE Y APELLIDO"] []).length / 4) :=
  have h := c3_balanced_split (fun _ i => i)
    [[("NOMBRE Y APELLIDO", "Aa")], [("NOMBRE Y APELLIDO", "Bb")]]
    ["NOMBRE Y APELLIDO"] (by decide)
  ⟨h.1 [("NOMBRE Y APELLIDO", "Aa")] (by decide),
    h.2 "Rojo" (by decide) "Azul" (by decide)⟩

end Agios
